import Mathlib

/-!
# Verification of `title_grabber_rs`

A shallow embedding of the core of `src/lib.rs` of the `title_grabber_rs`
repository, together with proofs settling the specification claims.

Modelling conventions:
* Rust `String`/`&str` values are Lean `String`s; character-level work happens
  on `String.data : List Char`.
* The regexes of the source (`URL_RE = https?://\S+`, `NEW_LINE_RE = \n`,
  `WHITESPACE_RE = \s{2,}`, `TWITTER_STATUS_RE = /status/\d+\z`) are embedded
  as executable character-list functions with the same matching semantics,
  restricted to ASCII whitespace (the claims never involve exotic Unicode
  whitespace).
* `reqwest::Url` is modelled by `ModelUrl` (scheme, host, path); parsing,
  joining against `https://twitter.com` and rendering follow the subset of
  `Url` behaviour the source exercises (no query/fragment/port/user-info
  normalisation).
* HTTP traffic is abstracted: the per-attempt outcome of `Client::send` is an
  oracle `Nat → FetchOutcome`, and a secondary fetch during permalink
  resolution is an oracle `String → Option ModelUrl` giving the final
  redirect-resolved URL (`None` = the fetch failed after its retries).
* File-system reading is abstracted: each input file is
  `Option (List String)` (`none` = `File::open` failed, `some lines` = its
  lines); the previously written output file is a list of CSV parse results
  `Option CsvRowM` (`none` = the row failed to deserialize).  The `csv`/serde
  layer maps an empty optional field to `Option.none`, so "non-empty title"
  in the spec corresponds to `Option.isSome` here, exactly as in the Rust
  struct `CsvRow { page_title: Option<String>, .. }`.
-/

/-- ASCII whitespace, the fragment of Rust's `char::is_whitespace` / regex
`\s` class relevant to the claims. -/
def isWs (c : Char) : Bool :=
  c == ' ' || c == '\t' || c == '\n' || c == '\r' || c == '\x0b' || c == '\x0c'

/-- Model of `str::trim` on the character list: drop whitespace from both ends. -/
def rustTrim (l : List Char) : List Char :=
  ((l.dropWhile isWs).reverse.dropWhile isWs).reverse

/-- The substitution `\n` → `' '` performed by `NEW_LINE_RE.replace_all`. -/
def nlMap (c : Char) : Char :=
  if c == '\n' then ' ' else c

/-- Model of `NEW_LINE_RE.replace_all(s, " ")`: replace every `\n` by a space. -/
def replaceNl (l : List Char) : List Char :=
  l.map nlMap

/-- Worker for `WHITESPACE_RE.replace_all(s, " ")` (`\s{2,}` → `" "`).
The flag records whether we are inside a whitespace run that has already been
replaced by a single space (regex `replace_all` consumes each maximal run of
two or more whitespace characters and emits one space; a lone whitespace
character is not a match and is kept verbatim). -/
def collapseGo : Bool → List Char → List Char
  | _, [] => []
  | skipping, c :: cs =>
    if isWs c then
      if skipping then collapseGo true cs
      else
        match cs with
        | [] => [c]
        | c2 :: _ =>
          if isWs c2 then ' ' :: collapseGo true cs
          else c :: collapseGo false cs
    else c :: collapseGo false cs

/-- Model of `WHITESPACE_RE.replace_all(s, " ")` on a character list. -/
def collapseWs (l : List Char) : List Char :=
  collapseGo false l

/-- Model of `fn fix_whitespace(html: String) -> String` from `src/lib.rs`:
trim, then replace every newline by a space, then collapse every run of two
or more whitespace characters to a single space. -/
def fix_whitespace (s : String) : String :=
  String.mk (collapseWs (replaceNl (rustTrim s.data)))

/-- Modelled from the spec: "`page_title` = inner text of the first title
element in the document, trimmed, with every run of two-or-more whitespace
characters (including embedded newlines) collapsed to a single space" and
"with no other characters altered" — i.e. trimming followed by run-collapsing
only, with no separate newline substitution. Used to compare the spec's
normalisation rule with the code's `fix_whitespace`. -/
def specTitleNormalize (s : String) : String :=
  String.mk (collapseWs (rustTrim s.data))

/-! ## The `URL_RE` and `TWITTER_STATUS_RE` regexes -/

/-- Tests that `pat` is a prefix of `l` (character lists). -/
def startsWithCl : List Char → List Char → Bool
  | [], _ => true
  | _ :: _, [] => false
  | p :: ps, c :: cs => p == c && startsWithCl ps cs

/-- The head of `l` exists and is not whitespace. -/
def hasNonWsHead : List Char → Bool
  | [] => false
  | c :: _ => !isWs c

/-- The regex `URL_RE = https?://\S+` matches starting at the head of `l`:
the literal scheme prefix followed by at least one non-whitespace char. -/
def startsWithHttpUrl (l : List Char) : Bool :=
  (startsWithCl "http://".data l && hasNonWsHead (l.drop 7)) ||
    (startsWithCl "https://".data l && hasNonWsHead (l.drop 8))

/-- Model of `URL_RE.is_match`: some position of `l` starts a match. -/
def urlReMatchCl : List Char → Bool
  | [] => false
  | c :: cs => startsWithHttpUrl (c :: cs) || urlReMatchCl cs

/-- Model of `URL_RE.is_match` on a string. -/
def urlReMatch (s : String) : Bool :=
  urlReMatchCl s.data

/-- Model of `URL_RE.find`: the first (leftmost) match of `https?://\S+`.  The greedy
`\S+` extends the match to the first whitespace character or the end of the
line, and the scheme characters themselves are non-whitespace, so the match
is the non-whitespace run starting where the scheme prefix starts. -/
def findUrlCl : List Char → Option (List Char)
  | [] => none
  | c :: cs =>
    if startsWithHttpUrl (c :: cs) then some ((c :: cs).takeWhile (fun d => !isWs d))
    else findUrlCl cs

/-- Model of `URL_RE.find` on a string (`match_.as_str()` of the first match). -/
def findUrl (s : String) : Option String :=
  (findUrlCl s.data).map String.mk

/-- The regex `TWITTER_STATUS_RE = /status/\d+\z`: the string ends in `/status/`
followed by one or more digits.  Matching is done on the reversed character
list: strip the trailing digit run, require it non-empty, and require the
rest to end with the literal `/status/`. -/
def statusReMatch (s : String) : Bool :=
  let rev := s.data.reverse
  let digits := rev.takeWhile Char.isDigit
  !digits.isEmpty && startsWithCl "/status/".data.reverse (rev.drop digits.length)

/-! ## The `reqwest::Url` model -/

/-- The subset of `reqwest::Url` the source exercises: scheme, host, path.
`intoString` renders it the way `Url::into_string`/`Url::as_str` would. -/
structure ModelUrl where
  scheme : String
  host : String
  path : String
deriving DecidableEq, Repr

/-- Model of `Url::into_string` / `Url::as_str`. -/
def ModelUrl.intoString (u : ModelUrl) : String :=
  u.scheme ++ "://" ++ u.host ++ u.path

/-- Splits `rest` (everything after `scheme://`) into host and path, the way
`Url::parse` does for the URLs the source handles: the host extends to the
first `/`, the path is the remainder (normalised to `/` when absent); an
empty host is a parse error. -/
def splitHostPath (scheme : String) (rest : List Char) : Option ModelUrl :=
  if (rest.takeWhile (fun c => c != '/')).isEmpty then none
  else
    some ⟨scheme, String.mk (rest.takeWhile (fun c => c != '/')),
      if (rest.dropWhile (fun c => c != '/')).isEmpty then "/"
      else String.mk (rest.dropWhile (fun c => c != '/'))⟩

/-- Model of `Url::parse` for absolute http(s) URLs. -/
def urlParse (s : String) : Option ModelUrl :=
  if startsWithCl "https://".data s.data then splitHostPath "https" (s.data.drop 8)
  else if startsWithCl "http://".data s.data then splitHostPath "http" (s.data.drop 7)
  else none

/-- Model of `TWITTER_URL_PREFIX.join(&url)` for `url` starting with `/`:
a path-absolute reference replaces the path of `https://twitter.com`; a
protocol-relative `//host/...` reference replaces the authority. -/
def twitterJoin (s : String) : Option ModelUrl :=
  if startsWithCl "//".data s.data then splitHostPath "https" (s.data.drop 2)
  else some ⟨"https", "twitter.com", s⟩

/-! ## String ordering, sorting and consecutive de-duplication

Rust's `sort_unstable` on strings orders by UTF-8 bytes, which coincides with
lexicographic order on Unicode code points; `dedup_by_key(|url| *url)`
removes consecutive equal elements. -/

/-- Lexicographic order on character lists by code point. -/
def charListLe : List Char → List Char → Bool
  | [], _ => true
  | _ :: _, [] => false
  | a :: as, b :: bs => if a = b then charListLe as bs else decide (a.toNat < b.toNat)

/-- Comparison of `&str` values, as used by `sort_unstable`. -/
def strLe (a b : String) : Bool :=
  charListLe a.data b.data

/-- Insertion of one string into a sorted list. -/
def insertStr (x : String) : List String → List String
  | [] => [x]
  | y :: ys => if strLe x y then x :: y :: ys else y :: insertStr x ys

/-- Model of `sort_unstable` (insertion sort; equal strings are
indistinguishable, so stability is irrelevant). -/
def sortStrs : List String → List String
  | [] => []
  | x :: xs => insertStr x (sortStrs xs)

/-- Model of `Vec::dedup_by_key(|url| *url)`: drop consecutive duplicates. -/
def dedupConsec : List String → List String
  | [] => []
  | x :: xs => x :: dedupGo x xs
where dedupGo : String → List String → List String
  | _, [] => []
  | prev, y :: ys => if y = prev then dedupGo prev ys else y :: dedupGo y ys

/-- The list is sorted with respect to `strLe`. -/
def isSortedStrs : List String → Bool
  | [] => true
  | [_] => true
  | x :: y :: r => strLe x y && isSortedStrs (y :: r)

/-- Boolean membership on string lists. -/
def memStr (x : String) : List String → Bool
  | [] => false
  | y :: ys => x == y || memStr x ys

/-- Boolean "no duplicates" on string lists. -/
def nodupStrs : List String → Bool
  | [] => true
  | x :: xs => !memStr x xs && nodupStrs xs

/-! ## The permalink-resolution pipeline of `TitleGrabber::scrape_url`

The hrefs collected from the two tweet-text CSS selectors are taken as an
input list; the HTML/selector machinery of the `scraper` crate is outside the
claims.  `fetch` is the secondary-fetch oracle: `fetch h = some u` means
`self.get(h, ..)` succeeded and the response's final URL was `u`;
`fetch h = none` means the fetch failed after exhausting its retries. -/

/-- Step 1–2 of the pipeline: keep non-empty hrefs, `sort_unstable`, then
`dedup_by_key` (full de-duplication of the raw strings, since they are
sorted). -/
def collectCandidates (hrefs : List String) : List String :=
  dedupConsec (sortStrs (hrefs.filter (fun h => h != "")))

/-- Step 3 (the first `filter_map` closure): a URL-shaped candidate is
refetched and replaced by its final resolved location; if that location is on
`twitter.com` but does not match `TWITTER_STATUS_RE`, the candidate is
dropped; if the fetch fails, the raw candidate string is kept. -/
def resolveCandidate (fetch : String → Option ModelUrl) (href : String) : Option String :=
  if urlReMatch href then
    match fetch href with
    | some u =>
      if u.host == "twitter.com" && !statusReMatch u.intoString then none
      else some u.intoString
    | none => some href
  else some href

/-- Step 4 (the second `filter_map` closure): candidates starting with `/`
are joined against `https://twitter.com`; the rest are parsed as absolute
URLs; unparsable candidates are dropped. -/
def parseCandidate (s : String) : Option ModelUrl :=
  match s.data with
  | '/' :: _ => twitterJoin s
  | _ => urlParse s

/-- Number of `/` characters in a path, as counted by
`url.path().chars().filter(|&c| c == '/').count()`. -/
def slashCount (s : String) : Nat :=
  (s.data.filter (fun c => c = '/')).length

/-- Step 5 (the third `filter_map` closure): a candidate on `twitter.com`
whose path has more than one `/` is dropped unless it matches
`TWITTER_STATUS_RE`; everything else is rendered back to a string. -/
def finalFilter (u : ModelUrl) : Option String :=
  if u.host == "twitter.com" && decide (1 < slashCount u.path)
      && !statusReMatch u.intoString then none
  else some u.intoString

/-- Steps 1–6 of the permalink resolution, up to the final
`sort_unstable` (the surviving candidate list, sorted). -/
def tweetPipeline (fetch : String → Option ModelUrl) (hrefs : List String) : List String :=
  sortStrs ((((collectCandidates hrefs).filterMap
    (resolveCandidate fetch)).filterMap parseCandidate).filterMap finalFilter)

/-- Steps 6–7: if any candidate survived, `end_url` becomes the survivors
joined with `CSV_FIELD_SEP = ","`; otherwise it stays the fetched page's own
final resolved location. -/
def scrapeEndUrl (fetch : String → Option ModelUrl) (pageEndUrl : String)
    (hrefs : List String) : String :=
  let t := tweetPipeline fetch hrefs
  if t.isEmpty then pageEndUrl else String.intercalate "," t

/-! ## The retry loop of `TitleGrabber::get`

One call to `http_client.get(url).send()` is abstracted as an oracle
`out : Nat → FetchOutcome`; `out i` is the outcome of the `(i+1)`-th send.
`retryableErr` is an error classified retryable by the source
(`err.is_http() || err.is_timeout() || err.is_server_error()`);
`terminalErr` is any other error. -/

inductive FetchOutcome where
  | success : FetchOutcome
  | retryableErr : FetchOutcome
  | terminalErr : FetchOutcome
deriving DecidableEq, Repr

/-- The `while let Some(err) = res.as_ref().err()` loop of
`TitleGrabber::get`.  The source state is `(retries, res)` with
`retries` starting at 0 after an initial send; here `k` is the remaining
budget `max_retries - retries` and `attempts` counts sends made so far, so
the loop body's `retries >= self.max_retries` test is `k = 0` and its
`retries + 1 < self.max_retries` test (after the `retries += 1` increment)
is `1 ≤ k - 1`, i.e. `1 ≤ k'` for `k = k' + 1`.  The outcome of the next
send is `out attempts` (sends are numbered from 0). -/
def getLoop (out : Nat → FetchOutcome) : Nat → Nat → FetchOutcome → FetchOutcome × Nat
  | _, attempts, FetchOutcome.success => (FetchOutcome.success, attempts)
  | 0, attempts, r => (r, attempts)
  | k + 1, attempts, r =>
    if r = FetchOutcome.retryableErr ∧ 1 ≤ k then
      getLoop out k (attempts + 1) (out attempts)
    else (r, attempts)

/-- Model of `TitleGrabber::get`: initial send, then the retry loop.  Returns the
final outcome (`success` abstracts `Some(resp)`, an error abstracts `None`)
together with the total number of sends made. -/
def tgGet (maxRetries : Nat) (out : Nat → FetchOutcome) : FetchOutcome × Nat :=
  getLoop out maxRetries 1 (out 0)

/-! ## `TitleGrabber::processed_urls` (the cache loader) -/

/-- The four fields of the output CSV (`struct CsvRow`); the optional titles
are `none` exactly when the CSV field is empty. -/
structure CsvRowM where
  url : String
  end_url : String
  page_title : Option String
  article_title : Option String
deriving DecidableEq, Repr

/-- The per-URL data stored in the cache (`end_url`, `page_title`,
`article_title`). -/
abbrev CacheData := String × Option String × Option String

/-- One loop iteration of `TitleGrabber::processed_urls`: a failed
deserialization (`none`, i.e. `row.is_err()`) is skipped; a parsed row is
inserted iff `page_title.is_some() || article_title.is_some()`; insertion
overwrites any earlier entry for the same URL, as `HashMap::insert` does. -/
def cacheInsert (acc : String → Option CacheData) (row : Option CsvRowM) :
    String → Option CacheData :=
  match row with
  | none => acc
  | some r =>
    if r.page_title.isSome || r.article_title.isSome then
      fun u => if u = r.url then some (r.end_url, r.page_title, r.article_title) else acc u
    else acc

/-- Model of `TitleGrabber::processed_urls`: fold `cacheInsert` over the
deserialization results of the existing output file's rows, starting from
the empty map. -/
def processed_urls (rows : List (Option CsvRowM)) : String → Option CacheData :=
  rows.foldl cacheInsert (fun _ => none)

/-! ## `TitleGrabber::write_csv_file`

The scan interleaves two effects per matched URL: a cache hit is serialized
immediately (in scan order) and a cache miss is submitted to the pool.  The
drain loop then receives exactly as many results as were submitted and
serializes the `Some` ones; their arrival order is unspecified, so theorems
about computed rows quantify over a permutation of the submitted jobs'
results.  `scrape` is the oracle for a full `scrape_url` job: `scrape u =
some (e, pt, at)` means the job for `u` sent back `Some(CsvRow { url: u,
end_url: e, page_title: pt, article_title: at })`, and `none` means it sent
back `None` (failed fetch / non-success status / unreadable body). -/

/-- The URLs matched during the scan, in scan order: unopenable input files
are skipped (`File::open(path).ok()`), and each line contributes its first
`URL_RE` match, if any. -/
def matchedUrls (files : List (Option (List String))) : List String :=
  (files.filterMap id).flatMap (fun lines => lines.filterMap findUrl)

/-- The rows serialized synchronously during the scan (cache hits), in scan
order. -/
def cachedRowsOf (cache : String → Option CacheData)
    (files : List (Option (List String))) : List CsvRowM :=
  (matchedUrls files).filterMap
    (fun u => (cache u).map (fun d => ⟨u, d.1, d.2.1, d.2.2⟩))

/-- The URLs submitted to the worker pool (cache misses), in scan order. -/
def submittedOf (cache : String → Option CacheData)
    (files : List (Option (List String))) : List String :=
  (matchedUrls files).filter (fun u => (cache u).isNone)

/-- The rows produced by the submitted jobs (drain results that were
`Some`), listed here in submission order; the drain may deliver any
permutation of this list. -/
def computedRowsOf (cache : String → Option CacheData)
    (scrape : String → Option CacheData)
    (files : List (Option (List String))) : List CsvRowM :=
  (submittedOf cache files).filterMap
    (fun u => (scrape u).map (fun d => ⟨u, d.1, d.2.1, d.2.2⟩))

/-- The row sequence written by one run, with the computed rows in
submission order (see `computedRowsOf`). -/
def writeCsvRows (cache : String → Option CacheData)
    (scrape : String → Option CacheData)
    (files : List (Option (List String))) : List CsvRowM :=
  cachedRowsOf cache files ++ computedRowsOf cache scrape files

/-- Model of `TitleGrabber::write_csv_file` as seen by its caller:
`csv::Writer::from_path(self.output_path)?` is the only fallible step that
reaches the `Result` (an unopenable input file is skipped by the scan), so
the run fails iff the output file cannot be opened for writing. -/
def write_csv_file (outputOpenOk : Bool) (cache : String → Option CacheData)
    (scrape : String → Option CacheData)
    (files : List (Option (List String))) : Except Unit (List CsvRowM) :=
  if outputOpenOk then Except.ok (writeCsvRows cache scrape files)
  else Except.error ()

/-! ## Predicates used to state the claims -/

/-- The claim's banned shape for C2 as stated: a parsable URL on
`twitter.com` whose full string does not match `TWITTER_STATUS_RE`. -/
def twitterNonStatusShape (s : String) : Bool :=
  match urlParse s with
  | some u => u.host == "twitter.com" && !statusReMatch s
  | none => false

/-- The shape the code actually excludes from `end_url`: a parsable URL on
`twitter.com` whose path has more than one `/` and whose full string does
not match `TWITTER_STATUS_RE`. -/
def twitterBadShape (s : String) : Bool :=
  match urlParse s with
  | some u => u.host == "twitter.com" && decide (1 < slashCount u.path) && !statusReMatch s
  | none => false

/-- Wellformedness of a `ModelUrl` as produced by `splitHostPath` and
`twitterJoin`: a recognised scheme, a non-empty slash-free host, and a path
starting with `/`.  Rendering such a URL and reparsing it gives it back. -/
def wfModel (u : ModelUrl) : Bool :=
  (u.scheme == "http" || u.scheme == "https") && !u.host.data.isEmpty
    && u.host.data.all (fun c => c != '/') && (u.path.data.head? == some '/')

/-- No two consecutive whitespace characters (so `WHITESPACE_RE = \s{2,}`
has no match). -/
def noRun : List Char → Bool
  | c1 :: c2 :: rest => !(isWs c1 && isWs c2) && noRun (c2 :: rest)
  | _ => true

/-- The head, when present, is not whitespace. -/
def headOkWs (l : List Char) : Bool :=
  match l.head? with
  | none => true
  | some c => !isWs c

/-- The last element, when present, is not whitespace. -/
def lastOkWs (l : List Char) : Bool :=
  match l.getLast? with
  | none => true
  | some c => !isWs c

/-! # Theorems

## Whitespace normalization: supporting lemmas -/

theorem isWs_nlMap (c : Char) : isWs (nlMap c) = isWs c := by
  by_cases h : c = '\n'
  · subst h; decide
  · simp [nlMap, h]

theorem nlMap_ne_newline (c : Char) : nlMap c ≠ '\n' := by
  by_cases h : c = '\n'
  · subst h; decide
  · simp [nlMap, h]

theorem dropWhile_eq_self_of_headOk (l : List Char) (h : headOkWs l = true) :
    l.dropWhile isWs = l := by
  cases l with
  | nil => rfl
  | cons c cs =>
    simp only [headOkWs, List.head?, Bool.not_eq_true'] at h
    simp [List.dropWhile_cons, h]

theorem headOk_dropWhile (l : List Char) : headOkWs (l.dropWhile isWs) = true := by
  induction l with
  | nil => rfl
  | cons c cs ih =>
    by_cases h : isWs c = true
    · simpa [List.dropWhile_cons, h] using ih
    · simp only [Bool.not_eq_true] at h
      simp [List.dropWhile_cons, h, headOkWs]

theorem getLast?_dropWhile (p : Char → Bool) (l : List Char)
    (h : l.dropWhile p ≠ []) : (l.dropWhile p).getLast? = l.getLast? := by
  induction l with
  | nil => simp [List.dropWhile] at h
  | cons c cs ih =>
    by_cases hp : p c = true
    · rw [List.dropWhile_cons, if_pos hp] at h ⊢
      have hcs : cs ≠ [] := by
        intro e
        subst e
        simp [List.dropWhile] at h
      rw [ih h]
      cases cs with
      | nil => exact absurd rfl hcs
      | cons d ds => rw [List.getLast?_cons_cons]
    · rw [List.dropWhile_cons, if_neg hp]

theorem lastOk_eq_headOk_reverse (l : List Char) : lastOkWs l = headOkWs l.reverse := by
  simp [lastOkWs, headOkWs, List.head?_reverse]

theorem rustTrim_headOk (l : List Char) : headOkWs (rustTrim l) = true := by
  unfold rustTrim
  by_cases h : (l.dropWhile isWs).reverse.dropWhile isWs = []
  · rw [h]; rfl
  · have h1 := getLast?_dropWhile isWs (l.dropWhile isWs).reverse h
    have h3 := headOk_dropWhile l
    simp only [headOkWs, List.head?_reverse] at h3 ⊢
    rw [h1, List.getLast?_reverse]
    exact h3

theorem rustTrim_lastOk (l : List Char) : lastOkWs (rustTrim l) = true := by
  unfold rustTrim
  rw [lastOk_eq_headOk_reverse, List.reverse_reverse]
  exact headOk_dropWhile _

theorem rustTrim_eq_self (l : List Char) (h1 : headOkWs l = true) (h2 : lastOkWs l = true) :
    rustTrim l = l := by
  unfold rustTrim
  rw [dropWhile_eq_self_of_headOk l h1,
    dropWhile_eq_self_of_headOk l.reverse (by rw [← lastOk_eq_headOk_reverse]; exact h2)]
  exact List.reverse_reverse l

theorem replaceNl_eq_self (l : List Char) (h : ∀ c ∈ l, c ≠ '\n') : replaceNl l = l := by
  unfold replaceNl
  induction l with
  | nil => rfl
  | cons c cs ih =>
    have hc : c ≠ '\n' := h c (by simp)
    simp only [List.map_cons]
    rw [ih (fun d hd => h d (by simp [hd]))]
    simp [nlMap, hc]

theorem collapseGo_cons_nonWs (b : Bool) (a : Char) (as : List Char) (h : isWs a = false) :
    collapseGo b (a :: as) = a :: collapseGo false as := by
  cases b <;> simp [collapseGo, h]

theorem collapseGo_cons_ws_skip (a : Char) (as : List Char) (h : isWs a = true) :
    collapseGo true (a :: as) = collapseGo true as := by
  simp [collapseGo, h]

theorem collapseGo_singleton_ws (a : Char) (h : isWs a = true) :
    collapseGo false [a] = [a] := by
  simp [collapseGo, h]

theorem collapseGo_cons2_ws_ws (a a2 : Char) (as : List Char)
    (h : isWs a = true) (h2 : isWs a2 = true) :
    collapseGo false (a :: a2 :: as) = ' ' :: collapseGo true (a2 :: as) := by
  simp [collapseGo, h, h2]

theorem collapseGo_cons2_ws_nonWs (a a2 : Char) (as : List Char)
    (h : isWs a = true) (h2 : isWs a2 = false) :
    collapseGo false (a :: a2 :: as) = a :: collapseGo false (a2 :: as) := by
  simp [collapseGo, h, h2]

theorem noRun_cons_of_nonWs (c : Char) (l : List Char) (h : isWs c = false) :
    noRun (c :: l) = noRun l := by
  cases l with
  | nil => rfl
  | cons d ds => simp [noRun, h]

theorem collapseGo_of_noRun (l : List Char) (h : noRun l = true) :
    collapseGo false l = l := by
  induction l with
  | nil => rfl
  | cons c cs ih =>
    by_cases hc : isWs c = true
    · cases cs with
      | nil => exact collapseGo_singleton_ws c hc
      | cons c2 r =>
        have hpair : (isWs c && isWs c2) = false := by
          have := h
          simp only [noRun, Bool.and_eq_true, Bool.not_eq_true'] at this
          exact this.1
        have hc2 : isWs c2 = false := by
          rcases Bool.and_eq_false_iff.mp hpair with h' | h'
          · rw [hc] at h'; exact absurd h' (by simp)
          · exact h'
        have htail : noRun (c2 :: r) = true := by
          simp only [noRun, Bool.and_eq_true] at h
          exact h.2
        rw [collapseGo_cons2_ws_nonWs c c2 r hc hc2, ih htail]
    · have hc' : isWs c = false := by simpa using hc
      rw [collapseGo_cons_nonWs false c cs hc']
      rw [noRun_cons_of_nonWs c cs hc'] at h
      rw [ih h]

theorem noRun_cons_of_headOk (d : Char) (X : List Char) (h1 : headOkWs X = true)
    (h2 : noRun X = true) : noRun (d :: X) = true := by
  cases X with
  | nil => rfl
  | cons x xs =>
    simp only [headOkWs, List.head?, Bool.not_eq_true'] at h1
    simp [noRun, h1, h2]

theorem lastOk_cons_of_ne (d : Char) (X : List Char) (h : X ≠ []) :
    lastOkWs (d :: X) = lastOkWs X := by
  cases X with
  | nil => cases h rfl
  | cons x xs =>
    unfold lastOkWs
    rw [List.getLast?_cons_cons]

theorem collapseGo_props (l : List Char) :
    noRun (collapseGo false l) = true ∧ noRun (collapseGo true l) = true ∧
      headOkWs (collapseGo true l) = true := by
  induction l with
  | nil => exact ⟨rfl, rfl, rfl⟩
  | cons c cs ih =>
    obtain ⟨ihF, ihT, ihTh⟩ := ih
    by_cases hc : isWs c = true
    · refine ⟨?_, ?_, ?_⟩
      · cases cs with
        | nil => rw [collapseGo_singleton_ws c hc]; rfl
        | cons c2 r =>
          by_cases hc2 : isWs c2 = true
          · rw [collapseGo_cons2_ws_ws c c2 r hc hc2]
            exact noRun_cons_of_headOk ' ' _ ihTh ihT
          · replace hc2 : isWs c2 = false := by simpa using hc2
            rw [collapseGo_cons2_ws_nonWs c c2 r hc hc2]
            rw [collapseGo_cons_nonWs false c2 r hc2] at ihF ⊢
            cases hgr : collapseGo false r with
            | nil => simp [noRun, hc2]
            | cons g gs =>
              rw [hgr] at ihF
              simp only [noRun, Bool.and_eq_true] at ihF ⊢
              refine ⟨by simp [hc2], ihF.1, ihF.2⟩
      · rw [collapseGo_cons_ws_skip c cs hc]
        exact ihT
      · rw [collapseGo_cons_ws_skip c cs hc]
        exact ihTh
    · have hc' : isWs c = false := by simpa using hc
      have hceq : ∀ b, collapseGo b (c :: cs) = c :: collapseGo false cs :=
        fun b => collapseGo_cons_nonWs b c cs hc'
      refine ⟨?_, ?_, ?_⟩
      · rw [hceq false]
        cases hgr : collapseGo false cs with
        | nil => rfl
        | cons g gs =>
          rw [hgr] at ihF
          simp only [noRun, Bool.and_eq_true] at ihF ⊢
          exact ⟨by simp [hc'], ihF⟩
      · rw [hceq true]
        cases hgr : collapseGo false cs with
        | nil => rfl
        | cons g gs =>
          rw [hgr] at ihF
          simp only [noRun, Bool.and_eq_true] at ihF ⊢
          exact ⟨by simp [hc'], ihF⟩
      · rw [hceq true]
        simp [headOkWs, hc']

theorem collapseGo_headOk (b : Bool) (l : List Char) (h : headOkWs l = true) :
    headOkWs (collapseGo b l) = true := by
  cases l with
  | nil => cases b <;> rfl
  | cons c cs =>
    have hc : isWs c = false := by
      simpa only [headOkWs, List.head?, Bool.not_eq_true'] using h
    rw [collapseGo_cons_nonWs b c cs hc]
    simp [headOkWs, hc]

theorem collapseGo_lastOk (l : List Char) (hne : l ≠ []) (h : lastOkWs l = true) :
    ∀ b, collapseGo b l ≠ [] ∧ lastOkWs (collapseGo b l) = true := by
  induction l with
  | nil => cases hne rfl
  | cons c cs ih =>
    intro b
    cases cs with
    | nil =>
      have hc : isWs c = false := by simpa [lastOkWs] using h
      rw [collapseGo_cons_nonWs b c [] hc]
      exact ⟨by simp, by simpa [lastOkWs, collapseGo] using hc⟩
    | cons c2 r =>
      have htail : lastOkWs (c2 :: r) = true := by
        unfold lastOkWs at h ⊢
        rw [List.getLast?_cons_cons] at h
        exact h
      have ihcc := ih (by simp) htail
      by_cases hc : isWs c = true
      · cases b with
        | true =>
          rw [collapseGo_cons_ws_skip c (c2 :: r) hc]
          exact ihcc true
        | false =>
          by_cases hc2 : isWs c2 = true
          · rw [collapseGo_cons2_ws_ws c c2 r hc hc2]
            obtain ⟨hne', hlast⟩ := ihcc true
            exact ⟨by simp, by rw [lastOk_cons_of_ne ' ' _ hne']; exact hlast⟩
          · replace hc2 : isWs c2 = false := by simpa using hc2
            rw [collapseGo_cons2_ws_nonWs c c2 r hc hc2]
            obtain ⟨hne', hlast⟩ := ihcc false
            exact ⟨by simp, by rw [lastOk_cons_of_ne c _ hne']; exact hlast⟩
      · have hc' : isWs c = false := by simpa using hc
        rw [collapseGo_cons_nonWs b c (c2 :: r) hc']
        obtain ⟨hne', hlast⟩ := ihcc false
        exact ⟨by simp, by rw [lastOk_cons_of_ne c _ hne']; exact hlast⟩

theorem mem_collapseGo (l : List Char) (c : Char) :
    ∀ b, c ∈ collapseGo b l → c ∈ l ∨ c = ' ' := by
  induction l with
  | nil => intro b h; cases b <;> simp [collapseGo] at h
  | cons a as ih =>
    intro b h
    by_cases ha : isWs a = true
    · cases b with
      | true =>
        rw [collapseGo_cons_ws_skip a as ha] at h
        rcases ih true h with h' | h'
        · exact Or.inl (List.mem_cons_of_mem a h')
        · exact Or.inr h'
      | false =>
        cases as with
        | nil =>
          rw [collapseGo_singleton_ws a ha] at h
          simp only [List.mem_singleton] at h
          subst h
          exact Or.inl (by simp)
        | cons a2 r =>
          by_cases ha2 : isWs a2 = true
          · rw [collapseGo_cons2_ws_ws a a2 r ha ha2] at h
            rcases List.mem_cons.mp h with h' | h'
            · exact Or.inr h'
            · rcases ih true h' with h'' | h''
              · exact Or.inl (List.mem_cons_of_mem a h'')
              · exact Or.inr h''
          · replace ha2 : isWs a2 = false := by simpa using ha2
            rw [collapseGo_cons2_ws_nonWs a a2 r ha ha2] at h
            rcases List.mem_cons.mp h with h' | h'
            · subst h'; exact Or.inl (by simp)
            · rcases ih false h' with h'' | h''
              · exact Or.inl (List.mem_cons_of_mem a h'')
              · exact Or.inr h''
    · have ha' : isWs a = false := by simpa using ha
      rw [collapseGo_cons_nonWs b a as ha'] at h
      rcases List.mem_cons.mp h with h' | h'
      · subst h'; exact Or.inl (by simp)
      · rcases ih false h' with h'' | h''
        · exact Or.inl (List.mem_cons_of_mem a h'')
        · exact Or.inr h''

theorem replaceNl_headOk (l : List Char) (h : headOkWs l = true) :
    headOkWs (replaceNl l) = true := by
  cases l with
  | nil => rfl
  | cons c cs =>
    simp only [headOkWs, List.head?, Bool.not_eq_true'] at h
    simp [replaceNl, headOkWs, isWs_nlMap, h]

theorem replaceNl_lastOk (l : List Char) (h : lastOkWs l = true) :
    lastOkWs (replaceNl l) = true := by
  rw [lastOk_eq_headOk_reverse] at h ⊢
  show headOkWs (List.reverse (List.map nlMap l)) = true
  rw [← List.map_reverse]
  exact replaceNl_headOk l.reverse h

/-- The output of `fix_whitespace` is fully normalised: non-whitespace at
both ends, no newline anywhere, and no two consecutive whitespace
characters. -/
theorem fixList_normalized (l : List Char) :
    headOkWs (collapseWs (replaceNl (rustTrim l))) = true ∧
      lastOkWs (collapseWs (replaceNl (rustTrim l))) = true ∧
      noRun (collapseWs (replaceNl (rustTrim l))) = true ∧
      ∀ c ∈ collapseWs (replaceNl (rustTrim l)), c ≠ '\n' := by
  refine ⟨?_, ?_, (collapseGo_props (replaceNl (rustTrim l))).1, ?_⟩
  · exact collapseGo_headOk false _ (replaceNl_headOk _ (rustTrim_headOk l))
  · by_cases hin : replaceNl (rustTrim l) = []
    · rw [collapseWs, hin]; rfl
    · exact (collapseGo_lastOk _ hin (replaceNl_lastOk _ (rustTrim_lastOk l)) false).2
  · intro c hc
    rcases mem_collapseGo _ c false hc with h' | h'
    · rcases List.mem_map.mp h' with ⟨d, _, hd⟩
      rw [← hd]
      exact nlMap_ne_newline d
    · rw [h']; decide

/-- Claim C8: the whitespace normalization `fix_whitespace` is idempotent: for
every string `s`, `fix_whitespace (fix_whitespace s) = fix_whitespace s`. -/
theorem claim8_fix_whitespace_idem (s : String) :
    fix_whitespace (fix_whitespace s) = fix_whitespace s := by
  obtain ⟨h1, h2, h3, h4⟩ := fixList_normalized s.data
  show String.mk (collapseWs (replaceNl (rustTrim (collapseWs (replaceNl (rustTrim s.data)))))) =
    String.mk (collapseWs (replaceNl (rustTrim s.data)))
  rw [rustTrim_eq_self _ h1 h2, replaceNl_eq_self _ h4, collapseWs, collapseGo_of_noRun _ h3]

theorem dropWhile_map_nlMap (l : List Char) :
    (l.map nlMap).dropWhile isWs = (l.dropWhile isWs).map nlMap := by
  induction l with
  | nil => rfl
  | cons c cs ih =>
    by_cases h : isWs c = true
    · simp [List.dropWhile_cons, isWs_nlMap, h, ih]
    · simp only [Bool.not_eq_true] at h
      simp [List.dropWhile_cons, isWs_nlMap, h]

/-- Newline substitution commutes with trimming (it maps whitespace to
whitespace and fixes everything else). -/
theorem replaceNl_rustTrim (l : List Char) :
    replaceNl (rustTrim l) = rustTrim (replaceNl l) := by
  show (rustTrim l).map nlMap = rustTrim (l.map nlMap)
  unfold rustTrim
  rw [dropWhile_map_nlMap, ← List.map_reverse, dropWhile_map_nlMap, ← List.map_reverse]

/-- Claim C7 (corrected): the stored `page_title` is *not* the spec's rule
applied verbatim — the code first replaces every newline (also a lone one)
by a space and only then collapses runs of two-or-more whitespace
characters.  Equivalently, `fix_whitespace` equals the spec's
trim-and-collapse rule applied after substituting every newline with a
space; on a lone embedded newline the two differ: the code yields a space
(`fix_whitespace "a\nb" = "a b"`), while a run of length one is untouched by
the spec's collapse rule. -/
theorem claim7_whitespace_rule (s : String) :
    fix_whitespace s = specTitleNormalize (String.mk (replaceNl s.data)) ∧
      fix_whitespace "a\nb" = "a b" := by
  constructor
  · show String.mk (collapseWs (replaceNl (rustTrim s.data))) =
      String.mk (collapseWs (rustTrim (replaceNl s.data)))
    rw [replaceNl_rustTrim]
  · decide

/-- Claim C7 counterexample: on `"a\nb"` — a single embedded newline that is
not part of a longer whitespace run — the code's `fix_whitespace` does alter
the character (it becomes a space), so the claimed "no other characters
altered" normalisation (`specTitleNormalize`, modelled from the spec's
words) disagrees with the code. -/
theorem claim7_counterexample :
    fix_whitespace "a\nb" ≠ specTitleNormalize "a\nb" := by decide

theorem getLoop_zero_retry (out : Nat → FetchOutcome) (a : Nat) :
    getLoop out 0 a FetchOutcome.retryableErr = (FetchOutcome.retryableErr, a) := rfl

theorem getLoop_succ_retry (out : Nat → FetchOutcome) (k a : Nat) :
    getLoop out (k + 1) a FetchOutcome.retryableErr =
      if 1 ≤ k then getLoop out k (a + 1) (out a) else (FetchOutcome.retryableErr, a) := by
  simp [getLoop]

theorem getLoop_success (out : Nat → FetchOutcome) (k a : Nat) :
    getLoop out k a FetchOutcome.success = (FetchOutcome.success, a) := by
  cases k <;> simp [getLoop]

theorem getLoop_allRetry (out : Nat → FetchOutcome)
    (h : ∀ n, out n = FetchOutcome.retryableErr) :
    ∀ k a, getLoop out k a FetchOutcome.retryableErr =
      (FetchOutcome.retryableErr, a + (k - 1)) := by
  intro k
  induction k with
  | zero => intro a; simp [getLoop_zero_retry]
  | succ k ih =>
    intro a
    rw [getLoop_succ_retry]
    by_cases hk : 1 ≤ k
    · rw [if_pos hk, h a, ih (a + 1)]
      have : a + 1 + (k - 1) = a + (k + 1 - 1) := by omega
      rw [this]
    · rw [if_neg hk]
      have : k = 0 := by omega
      subst this
      rfl

theorem getLoop_succLast (mr : Nat) (out : Nat → FetchOutcome)
    (hr : ∀ n, n + 1 < mr → out n = FetchOutcome.retryableErr)
    (hs : out (mr - 1) = FetchOutcome.success) :
    ∀ k a, a + k = mr + 1 → 1 ≤ a → a ≤ mr →
      getLoop out k a (out (a - 1)) = (FetchOutcome.success, mr) := by
  intro k
  induction k with
  | zero => intro a h1 h2 h3; omega
  | succ k ih =>
    intro a h1 h2 h3
    by_cases ha : a = mr
    · subst ha
      rw [hs, getLoop_success]
    · have halt : a < mr := lt_of_le_of_ne h3 ha
      have hout : out (a - 1) = FetchOutcome.retryableErr := hr (a - 1) (by omega)
      rw [hout, getLoop_succ_retry, if_pos (by omega : 1 ≤ k)]
      have := ih (a + 1) (by omega) (by omega) (by omega)
      rw [show a + 1 - 1 = a from by omega] at this
      exact this

/-- Claim C1 counterexample: with the library default `MAX_RETRIES = 3` and a
URL whose every send fails with a retryable error, `TitleGrabber::get` makes
3 total attempts, not `max_retries + 1 = 4` as the claim states. -/
theorem claim1_counterexample :
    (tgGet 3 (fun _ => FetchOutcome.retryableErr)).2 ≠ 3 + 1 := by decide

/-- Claim C1 (amended): for a URL whose sends keep failing with a retryable
error, `TitleGrabber::get` makes exactly `max 1 max_retries` total attempts
(`max_retries` attempts when `max_retries ≥ 1`, a single attempt when
`max_retries = 0`) — not `max_retries + 1`; and a URL that fails retryably
until the final permitted attempt and succeeds on attempt number
`max_retries` returns a successful response after exactly `max_retries`
attempts. -/
theorem claim1_retry_budget :
    (∀ mr out, (∀ n, out n = FetchOutcome.retryableErr) →
        tgGet mr out = (FetchOutcome.retryableErr, max 1 mr)) ∧
      (∀ mr out, 1 ≤ mr → (∀ n, n + 1 < mr → out n = FetchOutcome.retryableErr) →
        out (mr - 1) = FetchOutcome.success →
        tgGet mr out = (FetchOutcome.success, mr)) := by
  constructor
  · intro mr out h
    unfold tgGet
    rw [h 0, getLoop_allRetry out h mr 1]
    have : 1 + (mr - 1) = max 1 mr := by omega
    rw [this]
  · intro mr out hmr hr hs
    have := getLoop_succLast mr out hr hs mr 1 (by omega) le_rfl hmr
    rw [show (1 : Nat) - 1 = 0 from rfl] at this
    exact this

/-- Claim C1 witness: the amended boundary at the default `max_retries = 3`:
all-retryable failure gives 3 attempts; retryable failures followed by a
success on attempt 3 gives a successful result after 3 attempts. -/
theorem claim1_retry_budget_witness :
    tgGet 3 (fun _ => FetchOutcome.retryableErr) = (FetchOutcome.retryableErr, max 1 3) ∧
      tgGet 3 (fun n => if n + 1 < 3 then FetchOutcome.retryableErr else FetchOutcome.success) =
        (FetchOutcome.success, 3) :=
  ⟨claim1_retry_budget.1 3 _ (fun _ => rfl),
   claim1_retry_budget.2 3 _ (by omega) (fun n h => by simp [h]) (by decide)⟩

theorem foldl_cacheInsert_isSome (rows : List (Option CsvRowM)) :
    ∀ acc u, ((rows.foldl cacheInsert acc) u).isSome = true ↔
      ((acc u).isSome = true ∨ ∃ r : CsvRowM, some r ∈ rows ∧ r.url = u ∧
        (r.page_title.isSome || r.article_title.isSome) = true) := by
  induction rows with
  | nil => intro acc u; simp
  | cons row rest ih =>
    intro acc u
    rw [List.foldl_cons, ih]
    cases row with
    | none =>
      simp only [cacheInsert]
      constructor
      · rintro (h | ⟨r, hr, h2, h3⟩)
        · exact Or.inl h
        · exact Or.inr ⟨r, List.mem_cons_of_mem _ hr, h2, h3⟩
      · rintro (h | ⟨r, hr, h2, h3⟩)
        · exact Or.inl h
        · rcases List.mem_cons.mp hr with he | hm
          · exact absurd he (by simp)
          · exact Or.inr ⟨r, hm, h2, h3⟩
    | some r =>
      by_cases ht : (r.page_title.isSome || r.article_title.isSome) = true
      · by_cases hu : u = r.url
        · constructor
          · intro _
            exact Or.inr ⟨r, by simp, hu.symm, ht⟩
          · intro _
            left
            simp [cacheInsert, ht, if_pos hu]
        · constructor
          · rintro (h | ⟨r', hr', h2, h3⟩)
            · left
              simpa [cacheInsert, ht, if_neg hu] using h
            · exact Or.inr ⟨r', List.mem_cons_of_mem _ hr', h2, h3⟩
          · rintro (h | ⟨r', hr', h2, h3⟩)
            · left
              simpa [cacheInsert, ht, if_neg hu] using h
            · rcases List.mem_cons.mp hr' with he | hm
              · rw [Option.some_inj.mp he] at h2
                exact absurd h2.symm hu
              · exact Or.inr ⟨r', hm, h2, h3⟩
      · have hstep : cacheInsert acc (some r) = acc := by
          simp [cacheInsert, ht]
        rw [hstep]
        constructor
        · rintro (h | ⟨r', hr', h2, h3⟩)
          · exact Or.inl h
          · exact Or.inr ⟨r', List.mem_cons_of_mem _ hr', h2, h3⟩
        · rintro (h | ⟨r', hr', h2, h3⟩)
          · exact Or.inl h
          · rcases List.mem_cons.mp hr' with he | hm
            · rw [Option.some_inj.mp he] at h3
              exact absurd h3 ht
            · exact Or.inr ⟨r', hm, h2, h3⟩

/-- Claim C6: a URL is present in the cache built by
`TitleGrabber::processed_urls` iff some row of the previous output file
deserialized successfully with that URL and with at least one of
`page_title`/`article_title` non-empty (`isSome`, since the CSV layer maps
an empty optional field to `None`); in particular rows with both titles
empty are never cached. -/
theorem claim6_cache_iff (rows : List (Option CsvRowM)) (u : String) :
    (processed_urls rows u).isSome = true ↔
      ∃ r : CsvRowM, some r ∈ rows ∧ r.url = u ∧
        (r.page_title.isSome || r.article_title.isSome) = true := by
  unfold processed_urls
  rw [foldl_cacheInsert_isSome]
  simp

theorem matchedUrls_cons_none (files : List (Option (List String))) :
    matchedUrls (none :: files) = matchedUrls files := by
  simp [matchedUrls]

/-- Claim C4 counterexample: a run whose single input file cannot be opened
(`none`) still returns `Ok` (with an empty row list) — the unopenable input
file is skipped, the run is not aborted.  (The repository's own test
`it_does_not_panic_on_file_not_found` pins exactly this behaviour.) -/
theorem claim4_counterexample :
    (none ∈ ([none] : List (Option (List String)))) ∧
      write_csv_file true (fun _ => none) (fun _ => none) [none] = Except.ok [] :=
  ⟨by simp, rfl⟩

/-- Claim C4 (amended): only a failure to open the *output* file for writing
aborts the run (`csv::Writer::from_path(self.output_path)?`); an input file
that cannot be opened is silently skipped — the run continues with the
remaining files and still returns `Ok`. -/
theorem claim4_fs_failures (cache scrape : String → Option CacheData)
    (files : List (Option (List String))) :
    write_csv_file false cache scrape files = Except.error () ∧
      write_csv_file true cache scrape (none :: files) =
        write_csv_file true cache scrape files := by
  refine ⟨rfl, ?_⟩
  unfold write_csv_file writeCsvRows cachedRowsOf computedRowsOf submittedOf
  rw [matchedUrls_cons_none]

/-- Claim C9: each run rewrites the output from scratch: every row the run
serializes — a cache hit written during the scan or a computed row drained
from the channel (in any arrival order) — has a `url` matched from the
current input files, so rows of the previous output whose URLs no longer
occur are not carried over. -/
theorem claim9_fresh_output (cache scrape : String → Option CacheData)
    (files : List (Option (List String))) (results : List CsvRowM)
    (hperm : results.Perm (computedRowsOf cache scrape files)) :
    ∀ r ∈ cachedRowsOf cache files ++ results, r.url ∈ matchedUrls files := by
  intro r hr
  rcases List.mem_append.mp hr with h | h
  · rcases List.mem_filterMap.mp h with ⟨u, hu, he⟩
    rcases Option.map_eq_some'.mp he with ⟨d, _, hrow⟩
    rw [← hrow]
    exact hu
  · have h2 := hperm.mem_iff.mp h
    rcases List.mem_filterMap.mp h2 with ⟨u, hu, he⟩
    rcases Option.map_eq_some'.mp he with ⟨d, _, hrow⟩
    rw [← hrow]
    exact List.mem_of_mem_filter hu

/-- Claim C9 witness: a concrete run (empty cache, one input line, scraping
succeeds) whose single output row's `url` is among the matched URLs. -/
theorem claim9_fresh_output_witness :
    (⟨"https://e.com/a", "https://e.com/a", some "T", none⟩ : CsvRowM).url ∈
      matchedUrls [some ["x https://e.com/a"]] :=
  claim9_fresh_output (fun _ => none) (fun _ => some ("https://e.com/a", some "T", none))
    [some ["x https://e.com/a"]] _ (List.Perm.refl _) _ (by decide)

theorem countP_cachedRows_aux (cache : String → Option CacheData) (u : String) :
    ∀ m : List String,
      (m.filterMap (fun v => (cache v).map
          (fun d => (⟨v, d.1, d.2.1, d.2.2⟩ : CsvRowM)))).countP (fun r => r.url == u) =
        if (cache u).isSome then m.countP (fun v => v == u) else 0 := by
  intro m
  induction m with
  | nil => simp
  | cons v m ih =>
    cases hcv : cache v with
    | none =>
      simp only [List.filterMap_cons, hcv, Option.map_none']
      rw [ih, List.countP_cons]
      by_cases hvu : v = u
      · subst hvu
        simp [hcv]
      · simp [hvu]
    | some d =>
      simp only [List.filterMap_cons, hcv, Option.map_some']
      rw [List.countP_cons, ih, List.countP_cons]
      by_cases hvu : v = u
      · subst hvu
        simp [hcv]
      · simp [hvu]

theorem countP_computedRows_aux (cache scrape : String → Option CacheData) (u : String) :
    ∀ m : List String,
      ((m.filter (fun v => (cache v).isNone)).filterMap (fun v => (scrape v).map
          (fun d => (⟨v, d.1, d.2.1, d.2.2⟩ : CsvRowM)))).countP (fun r => r.url == u) =
        if (cache u).isNone && (scrape u).isSome then m.countP (fun v => v == u) else 0 := by
  intro m
  induction m with
  | nil => simp
  | cons v m ih =>
    rw [List.filter_cons]
    by_cases hcn : (cache v).isNone = true
    · rw [if_pos hcn]
      cases hsv : scrape v with
      | none =>
        simp only [List.filterMap_cons, hsv, Option.map_none']
        rw [ih, List.countP_cons]
        by_cases hvu : v = u
        · subst hvu
          simp [hcn, hsv]
        · simp [hvu]
      | some d =>
        simp only [List.filterMap_cons, hsv, Option.map_some']
        rw [List.countP_cons, ih, List.countP_cons]
        by_cases hvu : v = u
        · subst hvu
          simp [hcn, hsv]
        · simp [hvu]
    · rw [if_neg hcn, ih, List.countP_cons]
      by_cases hvu : v = u
      · subst hvu
        have hcf : (cache v).isNone = false := by
          cases hval : (cache v).isNone with
          | false => rfl
          | true => exact absurd hval hcn
        simp [hcf]
      · simp [hvu]

/-- Claim C3 counterexample: the same uncached URL matched on two input lines
produces two output rows with the same `url` — the claim "at most one row
per URL" fails (the run performs no per-run de-duplication of matched
URLs). -/
theorem claim3_counterexample :
    ¬((writeCsvRows (fun _ => none) (fun _ => some ("https://e.com/a", some "T", none))
        [some ["x https://e.com/a", "y https://e.com/a"]]).countP
          (fun r => r.url == "https://e.com/a") ≤ 1) := by decide

/-- Claim C3 (amended): the number of output rows carrying `url = u` equals
the number of matched occurrences of `u` across the input lines whenever `u`
is served from the cache or its scrape job returns a row, and `0` otherwise
— so a URL appears at most once in the output only when it is matched on at
most one input line, not in general. -/
theorem claim3_row_multiplicity (cache scrape : String → Option CacheData)
    (files : List (Option (List String))) (u : String) (results : List CsvRowM)
    (hperm : results.Perm (computedRowsOf cache scrape files)) :
    (cachedRowsOf cache files ++ results).countP (fun r => r.url == u) =
      if (cache u).isSome || (scrape u).isSome
      then (matchedUrls files).countP (fun v => v == u) else 0 := by
  rw [List.countP_append, hperm.countP_eq]
  unfold cachedRowsOf computedRowsOf submittedOf
  rw [countP_cachedRows_aux, countP_computedRows_aux]
  cases hc : cache u with
  | some d => simp [hc]
  | none =>
    cases hs : scrape u with
    | some d => simp [hc, hs]
    | none => simp [hc, hs]

/-- Claim C3 witness: on the two-line run of the counterexample the amended
multiplicity law evaluates: the cache misses, the scrape succeeds, and the
URL is matched twice, so its row count is the full occurrence count. -/
theorem claim3_row_multiplicity_witness :
    (cachedRowsOf (fun _ => none) [some ["x https://e.com/a", "y https://e.com/a"]] ++
        computedRowsOf (fun _ => none)
          (fun _ => some ("https://e.com/a", some "T", none))
          [some ["x https://e.com/a", "y https://e.com/a"]]).countP
        (fun r => r.url == "https://e.com/a") =
      if ((fun _ => (none : Option CacheData)) "https://e.com/a").isSome ||
          ((fun _ => some (("https://e.com/a", some "T", none) : CacheData))
            "https://e.com/a").isSome
      then (matchedUrls [some ["x https://e.com/a", "y https://e.com/a"]]).countP
        (fun v => v == "https://e.com/a") else 0 :=
  claim3_row_multiplicity (fun _ => none)
    (fun _ => some ("https://e.com/a", some "T", none))
    [some ["x https://e.com/a", "y https://e.com/a"]] "https://e.com/a" _
    (List.Perm.refl _)

theorem charToNat_inj {a b : Char} (h : a.toNat = b.toNat) : a = b :=
  Char.ext (UInt32.ext h)

theorem charListLe_refl : ∀ l : List Char, charListLe l l = true
  | [] => rfl
  | c :: cs => by simp [charListLe, charListLe_refl cs]

theorem charListLe_total (a : List Char) : ∀ b, charListLe a b = true ∨ charListLe b a = true := by
  induction a with
  | nil => intro b; exact Or.inl rfl
  | cons x xs ih =>
    intro b
    cases b with
    | nil => exact Or.inr rfl
    | cons y ys =>
      by_cases hxy : x = y
      · subst hxy
        rcases ih ys with h | h
        · exact Or.inl (by simp [charListLe, h])
        · exact Or.inr (by simp [charListLe, h])
      · have hne : x.toNat ≠ y.toNat := fun h => hxy (charToNat_inj h)
        rcases Nat.lt_or_ge x.toNat y.toNat with h | h
        · exact Or.inl (by simp [charListLe, hxy, h])
        · have hlt : y.toNat < x.toNat := lt_of_le_of_ne h (Ne.symm hne)
          exact Or.inr (by simp [charListLe, Ne.symm hxy, hlt])

theorem charListLe_trans (a : List Char) :
    ∀ b c, charListLe a b = true → charListLe b c = true → charListLe a c = true := by
  induction a with
  | nil => intro b c _ _; rfl
  | cons x xs ih =>
    intro b c hab hbc
    cases b with
    | nil => simp [charListLe] at hab
    | cons y ys =>
      cases c with
      | nil => simp [charListLe] at hbc
      | cons z zs =>
        by_cases hxy : x = y
        · subst hxy
          by_cases hyz : x = z
          · subst hyz
            simp only [charListLe, if_pos rfl] at hab hbc ⊢
            exact ih ys zs hab hbc
          · simp only [charListLe, if_pos rfl] at hab
            simp only [charListLe, if_neg hyz] at hbc ⊢
            exact hbc
        · by_cases hyz : y = z
          · subst hyz
            simp only [charListLe, if_neg hxy] at hab ⊢
            exact hab
          · simp only [charListLe, if_neg hxy] at hab
            simp only [charListLe, if_neg hyz] at hbc
            have h1 : x.toNat < y.toNat := of_decide_eq_true hab
            have h2 : y.toNat < z.toNat := of_decide_eq_true hbc
            have hxz : ¬x = z := by
              intro e
              subst e
              exact absurd (Nat.lt_trans h1 h2) (lt_irrefl _)
            simp [charListLe, hxz, Nat.lt_trans h1 h2]

theorem charListLe_antisymm (a : List Char) :
    ∀ b, charListLe a b = true → charListLe b a = true → a = b := by
  induction a with
  | nil =>
    intro b _ hba
    cases b with
    | nil => rfl
    | cons y ys => simp [charListLe] at hba
  | cons x xs ih =>
    intro b hab hba
    cases b with
    | nil => simp [charListLe] at hab
    | cons y ys =>
      by_cases hxy : x = y
      · subst hxy
        simp only [charListLe, if_pos rfl] at hab hba
        rw [ih ys hab hba]
      · simp only [charListLe, if_neg hxy] at hab
        simp only [charListLe, if_neg (Ne.symm hxy)] at hba
        have h1 : x.toNat < y.toNat := of_decide_eq_true hab
        have h2 : y.toNat < x.toNat := of_decide_eq_true hba
        exact absurd (Nat.lt_trans h1 h2) (lt_irrefl _)

theorem strLe_total (a b : String) : strLe a b = true ∨ strLe b a = true :=
  charListLe_total a.data b.data

theorem strLe_trans {a b c : String} (h1 : strLe a b = true) (h2 : strLe b c = true) :
    strLe a c = true :=
  charListLe_trans a.data b.data c.data h1 h2

theorem strLe_antisymm {a b : String} (h1 : strLe a b = true) (h2 : strLe b a = true) :
    a = b :=
  congrArg String.mk (charListLe_antisymm a.data b.data h1 h2)

theorem mem_insertStr (x y : String) (l : List String) :
    y ∈ insertStr x l ↔ y = x ∨ y ∈ l := by
  induction l with
  | nil => simp [insertStr]
  | cons z zs ih =>
    by_cases h : strLe x z = true
    · simp [insertStr, h]
    · simp only [insertStr, if_neg h, List.mem_cons, ih]
      tauto

theorem mem_sortStrs (y : String) (l : List String) : y ∈ sortStrs l ↔ y ∈ l := by
  induction l with
  | nil => simp [sortStrs]
  | cons x xs ih => simp [sortStrs, mem_insertStr, ih]

theorem isSorted_insertStr (x : String) (l : List String) (h : isSortedStrs l = true) :
    isSortedStrs (insertStr x l) = true := by
  induction l with
  | nil => rfl
  | cons z zs ih =>
    by_cases hxz : strLe x z = true
    · simp only [insertStr, if_pos hxz, isSortedStrs, Bool.and_eq_true]
      exact ⟨hxz, h⟩
    · have hzx : strLe z x = true := by
        rcases strLe_total x z with h' | h'
        · exact absurd h' hxz
        · exact h'
      rw [insertStr, if_neg hxz]
      have hzs : isSortedStrs zs = true := by
        cases zs with
        | nil => rfl
        | cons w ws =>
          simp only [isSortedStrs, Bool.and_eq_true] at h
          exact h.2
      have hsub := ih hzs
      cases zs with
      | nil =>
        simp [insertStr, isSortedStrs, hzx]
      | cons w ws =>
        have hzw : strLe z w = true := by
          simp only [isSortedStrs, Bool.and_eq_true] at h
          exact h.1
        by_cases hxw : strLe x w = true
        · simp only [insertStr, if_pos hxw, isSortedStrs, Bool.and_eq_true] at hsub ⊢
          exact ⟨hzx, hsub⟩
        · simp only [insertStr, if_neg hxw] at hsub ⊢
          simp only [isSortedStrs, Bool.and_eq_true]
          exact ⟨hzw, hsub⟩

theorem isSorted_sortStrs (l : List String) : isSortedStrs (sortStrs l) = true := by
  induction l with
  | nil => rfl
  | cons x xs ih => exact isSorted_insertStr x (sortStrs xs) ih

theorem memStr_iff (x : String) (l : List String) : memStr x l = true ↔ x ∈ l := by
  induction l with
  | nil => simp [memStr]
  | cons y ys ih => simp [memStr, ih]

theorem dedupGo_sorted (l : List String) :
    ∀ prev, isSortedStrs (prev :: l) = true →
      nodupStrs (dedupConsec.dedupGo prev l) = true ∧
        ∀ z ∈ dedupConsec.dedupGo prev l, strLe prev z = true ∧ z ≠ prev := by
  induction l with
  | nil =>
    intro prev _
    exact ⟨rfl, by simp [dedupConsec.dedupGo]⟩
  | cons y ys ih =>
    intro prev h
    have hpy : strLe prev y = true := by
      simp only [isSortedStrs, Bool.and_eq_true] at h
      exact h.1
    have hys : isSortedStrs (y :: ys) = true := by
      simp only [isSortedStrs, Bool.and_eq_true] at h
      exact h.2
    by_cases hyp : y = prev
    · rw [dedupConsec.dedupGo, if_pos hyp]
      subst hyp
      exact ih y hys
    · rw [dedupConsec.dedupGo, if_neg hyp]
      obtain ⟨hnd, hall⟩ := ih y hys
      have hmem : memStr y (dedupConsec.dedupGo y ys) = false := by
        cases hm : memStr y (dedupConsec.dedupGo y ys) with
        | false => rfl
        | true =>
          have hin : y ∈ dedupConsec.dedupGo y ys := (memStr_iff _ _).mp hm
          exact absurd rfl (hall y hin).2
      refine ⟨by simp [nodupStrs, hmem, hnd], ?_⟩
      intro z hz
      rcases List.mem_cons.mp hz with he | hm
      · subst he
        exact ⟨hpy, hyp⟩
      · obtain ⟨h1, h2⟩ := hall z hm
        refine ⟨strLe_trans hpy h1, ?_⟩
        intro e
        subst e
        exact hyp (strLe_antisymm h1 hpy)

theorem nodup_dedup_sorted (l : List String) (h : isSortedStrs l = true) :
    nodupStrs (dedupConsec l) = true := by
  cases l with
  | nil => rfl
  | cons x xs =>
    obtain ⟨hnd, hall⟩ := dedupGo_sorted xs x h
    have hmem : memStr x (dedupConsec.dedupGo x xs) = false := by
      cases hm : memStr x (dedupConsec.dedupGo x xs) with
      | false => rfl
      | true =>
        have hin : x ∈ dedupConsec.dedupGo x xs := (memStr_iff _ _).mp hm
        exact absurd rfl (hall x hin).2
    simp [dedupConsec, nodupStrs, hmem, hnd]

theorem all_takeWhile (p : Char → Bool) (l : List Char) : (l.takeWhile p).all p = true := by
  induction l with
  | nil => rfl
  | cons c cs ih =>
    by_cases h : p c = true
    · simp [List.takeWhile_cons, h, ih]
    · simp [List.takeWhile_cons, h]

theorem dropWhile_head_false (p : Char → Bool) (l : List Char) :
    ∀ c cs, l.dropWhile p = c :: cs → p c = false := by
  induction l with
  | nil => intro c cs h; simp [List.dropWhile] at h
  | cons a as ih =>
    intro c cs h
    by_cases ha : p a = true
    · rw [List.dropWhile_cons, if_pos ha] at h
      exact ih c cs h
    · rw [List.dropWhile_cons, if_neg ha] at h
      cases h
      simp only [Bool.not_eq_true] at ha
      exact ha

theorem splitHostPath_wf (scheme : String) (rest : List Char) (u : ModelUrl)
    (hs : (scheme == "http" || scheme == "https") = true)
    (h : splitHostPath scheme rest = some u) : wfModel u = true := by
  unfold splitHostPath at h
  split at h
  · cases h
  · cases h
    rename_i hne
    simp only [wfModel, Bool.and_eq_true]
    refine ⟨⟨⟨hs, ?_⟩, ?_⟩, ?_⟩
    · simpa using hne
    · exact all_takeWhile _ rest
    · cases hd : rest.dropWhile (fun c => c != '/') with
      | nil => simp [hd]
      | cons c cs =>
        have hc : (c != '/') = false := dropWhile_head_false _ rest c cs hd
        have hc' : c = '/' := by simpa using hc
        simp [hd, hc']

theorem urlParse_wf (s : String) (u : ModelUrl) (h : urlParse s = some u) :
    wfModel u = true := by
  unfold urlParse at h
  split at h
  · exact splitHostPath_wf "https" _ u (by decide) h
  · split at h
    · exact splitHostPath_wf "http" _ u (by decide) h
    · cases h

theorem twitterJoin_wf (s : String) (u : ModelUrl)
    (hs : s.data.head? = some '/') (h : twitterJoin s = some u) : wfModel u = true := by
  unfold twitterJoin at h
  split at h
  · exact splitHostPath_wf "https" _ u (by decide) h
  · cases h
    simp only [wfModel, Bool.and_eq_true]
    exact ⟨⟨⟨by decide, by decide⟩, by decide⟩, by simp [hs]⟩

theorem parseCandidate_wf (s : String) (u : ModelUrl) (h : parseCandidate s = some u) :
    wfModel u = true := by
  unfold parseCandidate at h
  split at h
  · rename_i t heq
    exact twitterJoin_wf s u (by rw [heq]; rfl) h
  · exact urlParse_wf s u h

theorem startsWithCl_append (p r : List Char) : startsWithCl p (p ++ r) = true := by
  induction p with
  | nil => rfl
  | cons c cs ih => simp [startsWithCl, ih]

theorem takeWhile_append_head_false (p : Char → Bool) (xs : List Char) (c : Char)
    (cs : List Char) (hall : xs.all p = true) (hc : p c = false) :
    (xs ++ c :: cs).takeWhile p = xs ∧ (xs ++ c :: cs).dropWhile p = c :: cs := by
  induction xs with
  | nil => simp [List.takeWhile_cons, List.dropWhile_cons, hc]
  | cons a as ih =>
    rw [List.all_cons, Bool.and_eq_true] at hall
    obtain ⟨h1, h2⟩ := ih hall.2
    simp [List.takeWhile_cons, List.dropWhile_cons, hall.1, h1, h2]

/-- Rendering a wellformed `ModelUrl` and reparsing it recovers it. -/
theorem urlParse_intoString (u : ModelUrl) (h : wfModel u = true) :
    urlParse u.intoString = some u := by
  obtain ⟨scheme, host, path⟩ := u
  simp only [wfModel, Bool.and_eq_true] at h
  obtain ⟨⟨⟨hsch, hhost⟩, hall⟩, hpath⟩ := h
  have hpath' : path.data.head? = some '/' := by simpa using hpath
  obtain ⟨t, hpt⟩ : ∃ t, path.data = '/' :: t := by
    cases hp : path.data with
    | nil => rw [hp] at hpath'; cases hpath'
    | cons c cs =>
      rw [hp] at hpath'
      simp only [List.head?, Option.some_inj] at hpath'
      rw [hpath']
      exact ⟨cs, rfl⟩
  have hne : host.data.isEmpty = false := by
    cases hdata : host.data with
    | nil => rw [hdata] at hhost; simp at hhost
    | cons a as => simp
  have hkey := takeWhile_append_head_false (fun c => c != '/') host.data '/' t hall (by decide)
  have hsplit : splitHostPath scheme (host.data ++ path.data) = some ⟨scheme, host, path⟩ := by
    rw [hpt]
    unfold splitHostPath
    rw [hkey.1, hkey.2, if_neg (by simp [hne]), if_neg (by simp), ← hpt]
  rcases (Bool.or_eq_true _ _).mp hsch with hcase | hcase
  · have he : scheme = "http" := by simpa using hcase
    subst he
    show urlParse ("http" ++ "://" ++ host ++ path) = _
    unfold urlParse
    have hdata : ("http" ++ "://" ++ host ++ path).data =
        "http://".data ++ (host.data ++ path.data) := by
      simp [String.data_append]
    rw [hdata]
    have hno : startsWithCl "https://".data ("http://".data ++ (host.data ++ path.data)) =
        false := rfl
    have hnot : ¬(startsWithCl "https://".data
        ("http://".data ++ (host.data ++ path.data)) = true) := by
      rw [hno]
      simp
    rw [if_neg hnot, if_pos (startsWithCl_append "http://".data _)]
    exact hsplit
  · have he : scheme = "https" := by simpa using hcase
    subst he
    show urlParse ("https" ++ "://" ++ host ++ path) = _
    unfold urlParse
    have hdata : ("https" ++ "://" ++ host ++ path).data =
        "https://".data ++ (host.data ++ path.data) := by
      simp [String.data_append]
    rw [hdata]
    rw [if_pos (startsWithCl_append "https://".data _)]
    exact hsplit

/-- Claim C2 counterexample: a relative profile href `/cristianrasch` survives
the whole pipeline (its path has only one segment, so the final filter keeps
it), and the resulting `end_url` entry `https://twitter.com/cristianrasch`
is on the permalink host without matching the canonical status-id shape.
(The repository's integration test `it_works_with_twitter_status_update_urls`
pins the same behaviour: `https://twitter.com/cityblockhealth` appears in
`end_url`.) -/
theorem claim2_counterexample :
    tweetPipeline (fun _ => none) ["/cristianrasch"] =
        ["https://twitter.com/cristianrasch"] ∧
      twitterNonStatusShape "https://twitter.com/cristianrasch" = true := by
  exact ⟨by decide, by decide⟩

/-- Claim C2 (amended): no URL on the permalink host `twitter.com` *whose path
has more than one segment* (more than one `/`) survives into the permalink
candidate list unless its string matches the canonical status-id shape
`/status/<digits>`; single-segment twitter.com URLs (profile and homepage
links) are allowed through. -/
theorem claim2_permalink_filter (fetch : String → Option ModelUrl) (hrefs : List String)
    (s : String) (hs : s ∈ tweetPipeline fetch hrefs) : twitterBadShape s = false := by
  unfold tweetPipeline at hs
  rw [mem_sortStrs] at hs
  rcases List.mem_filterMap.mp hs with ⟨u, hu, hf⟩
  have hwf : wfModel u = true := by
    rcases List.mem_filterMap.mp hu with ⟨c, _, hc⟩
    exact parseCandidate_wf c u hc
  unfold finalFilter at hf
  split at hf
  · cases hf
  · rename_i hcond
    cases hf
    have hred : twitterBadShape u.intoString =
        (u.host == "twitter.com" && decide (1 < slashCount u.path)
          && !statusReMatch u.intoString) := by
      unfold twitterBadShape
      rw [urlParse_intoString u hwf]
    rw [hred]
    cases hb : (u.host == "twitter.com" && decide (1 < slashCount u.path)
        && !statusReMatch u.intoString) with
    | false => rfl
    | true => exact absurd hb hcond

/-- Claim C2 witness: a valid status-shaped relative permalink survives the
pipeline and indeed is not of the banned shape. -/
theorem claim2_permalink_filter_witness :
    twitterBadShape "https://twitter.com/a/status/1" = false :=
  claim2_permalink_filter (fun _ => none) ["/a/status/1"] _ (by decide)

/-- Claim C10: in the permalink resolution, a URL-shaped href whose secondary
fetch fails (`fetch h = none`) is kept as its original raw string by the
resolution step, and its contribution to the pipeline is exactly the parse
and final-filter steps applied to that raw string — it is neither dropped
nor replaced by a resolved location. -/
theorem claim10_failed_refetch_kept (fetch : String → Option ModelUrl) (h : String)
    (hmatch : urlReMatch h = true) (hfail : fetch h = none) :
    resolveCandidate fetch h = some h ∧
      (resolveCandidate fetch h).bind (fun s => (parseCandidate s).bind finalFilter) =
        (parseCandidate h).bind finalFilter := by
  have h1 : resolveCandidate fetch h = some h := by
    unfold resolveCandidate
    rw [if_pos hmatch, hfail]
  exact ⟨h1, by rw [h1, Option.some_bind]⟩

/-- Claim C10 witness: a `t.co`-style href whose secondary fetch fails is kept
verbatim. -/
theorem claim10_failed_refetch_kept_witness :
    resolveCandidate (fun _ => none) "https://t.co/xyz" = some "https://t.co/xyz" ∧
      (resolveCandidate (fun _ => none) "https://t.co/xyz").bind
          (fun s => (parseCandidate s).bind finalFilter) =
        (parseCandidate "https://t.co/xyz").bind finalFilter :=
  claim10_failed_refetch_kept (fun _ => none) "https://t.co/xyz" (by decide) rfl

/-- Claim C5 counterexample: two distinct raw hrefs that resolve to the same
final URL both survive — de-duplication happens only on the raw strings
*before* resolution, so the joined `end_url` contains the same resolved URL
twice and the surviving list has a duplicate. -/
theorem claim5_counterexample :
    scrapeEndUrl (fun _ => some ⟨"https", "c.example", "/z"⟩) "https://t.co/page"
        ["http://a.example/1", "http://b.example/2"] =
      "https://c.example/z,https://c.example/z" ∧
      nodupStrs (tweetPipeline (fun _ => some ⟨"https", "c.example", "/z"⟩)
        ["http://a.example/1", "http://b.example/2"]) = false := by
  exact ⟨by decide, by decide⟩

/-- Claim C5 (amended): the surviving candidates are sorted and joined with
the field separator, but de-duplication is applied to the *raw hrefs*
(sorted, then consecutive duplicates removed) before resolution, not to the
resolved URLs: the candidate list entering resolution has no duplicates, the
final survivor list is sorted, and a page embedding two distinct valid
status-shaped permalinks yields an `end_url` containing both, sorted and
joined with `","`. -/
theorem claim5_sorted_join :
    (∀ fetch hrefs, isSortedStrs (tweetPipeline fetch hrefs) = true) ∧
      (∀ hrefs, nodupStrs (collectCandidates hrefs) = true) ∧
      scrapeEndUrl (fun s => urlParse s) "https://t.co/page"
          ["https://twitter.com/b/status/2", "https://twitter.com/a/status/1"] =
        "https://twitter.com/a/status/1,https://twitter.com/b/status/2" := by
  refine ⟨?_, ?_, ?_⟩
  · intro fetch hrefs
    exact isSorted_sortStrs _
  · intro hrefs
    exact nodup_dedup_sorted _ (isSorted_sortStrs _)
  · decide

/-! ## Concrete sanity checks of the embedding -/

example : fix_whitespace "  1\n2 \t3 " = "1 2 3" := by decide

example : fix_whitespace "a\nb" = "a b" := by decide

example : specTitleNormalize "a\nb" = "a\nb" := by decide

example : urlReMatch "see https://example.com/page1 thanks" = true := by decide

example : urlReMatch "/cristianrasch" = false := by decide

example : urlReMatch "http://" = false := by decide

example : findUrl "see https://example.com/page1 thanks" = some "https://example.com/page1" := by
  decide

example : findUrl "no links here" = none := by decide

example : statusReMatch "https://twitter.com/cityblockhealth/status/1116351442460315649" = true := by
  decide

example : statusReMatch "https://twitter.com/cityblockhealth" = false := by decide

example : statusReMatch "https://twitter.com/a/status/12x3" = false := by decide

example : urlParse "https://twitter.com/a/status/1" =
    some ⟨"https", "twitter.com", "/a/status/1"⟩ := by decide

example : urlParse "https://twitter.com" = some ⟨"https", "twitter.com", "/"⟩ := by decide

example : urlParse "pic.twitter.com/xyz" = none := by decide

example : twitterJoin "/cristianrasch" = some ⟨"https", "twitter.com", "/cristianrasch"⟩ := by
  decide

example : sortStrs ["b", "a", "a"] = ["a", "a", "b"] := by decide

example : dedupConsec ["a", "a", "b"] = ["a", "b"] := by decide

example :
    tweetPipeline (fun _ => none) ["/cristianrasch"] =
      ["https://twitter.com/cristianrasch"] := by decide

example :
    tweetPipeline (fun _ => some ⟨"https", "c.example", "/z"⟩)
      ["http://a.example/1", "http://b.example/2"] =
      ["https://c.example/z", "https://c.example/z"] := by decide

example : tgGet 3 (fun _ => FetchOutcome.retryableErr) = (FetchOutcome.retryableErr, 3) := by
  decide

example : tgGet 1 (fun _ => FetchOutcome.retryableErr) = (FetchOutcome.retryableErr, 1) := by
  decide

example : tgGet 0 (fun _ => FetchOutcome.retryableErr) = (FetchOutcome.retryableErr, 1) := by
  decide

example :
    tgGet 3 (fun n => if n < 2 then FetchOutcome.retryableErr else FetchOutcome.success) =
      (FetchOutcome.success, 3) := by decide

example : tgGet 3 (fun _ => FetchOutcome.terminalErr) = (FetchOutcome.terminalErr, 1) := by
  decide

example :
    processed_urls [some ⟨"u", "e", none, none⟩] "u" = none := by decide

example :
    processed_urls [some ⟨"u", "e", some "T", none⟩] "u" = some ("e", some "T", none) := by
  decide

example :
    write_csv_file true (fun _ => none) (fun _ => none) [none] = Except.ok [] := rfl

example :
    writeCsvRows (fun _ => none)
      (fun _ => some ("https://e.com/a", some "T", none))
      [some ["x https://e.com/a", "y https://e.com/a"]] =
      [⟨"https://e.com/a", "https://e.com/a", some "T", none⟩,
       ⟨"https://e.com/a", "https://e.com/a", some "T", none⟩] := by decide
